import Mathlib

/-!
Shallow embedding of `jacksontj/targetsync` (`sync.go`) for checking the
natural-language specification against the code.

Modelling conventions:

* Wall-clock time is modelled at one-second granularity by `Int`, so that
  Go's `time.Time.Unix()` is the identity at this granularity.  Timers are
  modelled by their absolute fire instant; a timer may fire at any instant
  at or after that instant (Go timers fire at or after their deadline, and
  a `Reset` with a non-positive duration fires immediately).  Trace
  validity (`bgValid`) enforces exactly this.

* The `lane.PQueue` min-priority queue (external dependency) is modelled at
  its interface as a deadline-sorted list: `Head` is the minimum-deadline
  entry, `Push` inserts (stably, after equal deadlines), `Pop` drops the
  head, and `Remove item` deletes the entry with the given handle.  Handles
  (`*lane.Item`) are modelled by unique numeric ids issued at push time.

* Go maps (`itemMap`, `srcMap`, `dstMap`) are modelled as association
  lists where an assignment replaces any previous binding for the key.

* The background loops (`Syncer.Run`, `Syncer.bgRemove`, the reconcile loop
  of `Syncer.runLeader`) are modelled as step functions over explicit state,
  driven by the sequence of events their `select` statements can receive;
  calls to the external `TargetDestination` are emitted as events, and
  their success or failure is supplied by the trace (an oracle).
-/

namespace Targetsync

/-- Target endpoint.  Modelled from the spec: the `Target` type itself is not
in `sync.go` (only its uses are); the spec states it carries `IP` (identity)
and `Port`, with `Key()` derived from IP alone. -/
structure Target where
  ip : String
  port : Nat
deriving DecidableEq, Repr

/-- Modelled from the spec: `Target.Key()` is derived deterministically from
the IP alone.  `runLeader` keys its maps by `target.IP` directly, and
`bgRemove` keys `itemMap` by `Key()`; both agree under this model. -/
def Target.key (t : Target) : String := t.ip

/-! ### Association-list model of Go maps -/

/-- Lookup in a Go-map model: first binding for the key. -/
def alistLookup {α : Type} : List (String × α) → String → Option α
  | [], _ => none
  | p :: rest, k => if p.1 = k then some p.2 else alistLookup rest k

/-- Deletion (`delete(m, k)`): drop every binding for the key. -/
def alistErase {α : Type} (m : List (String × α)) (k : String) : List (String × α) :=
  m.filter (fun p => p.1 ≠ k)

/-- Assignment (`m[k] = v`): replace any previous binding for the key. -/
def alistInsert {α : Type} (m : List (String × α)) (k : String) (v : α) :
    List (String × α) :=
  (k, v) :: alistErase m k

/-! ### The delayed-removal queue loop (`Syncer.bgRemove`) -/

/-- One pending-removal record in the `lane.PQueue`: the pushed target, its
scheduled removal instant (`removeUnixTime`), and the `*lane.Item` handle
modelled as a unique id. -/
structure Entry where
  id : Nat
  target : Target
  deadline : Int
deriving DecidableEq, Repr

/-- `q.Push v priority` for the min-priority queue, modelled as stable sorted
insertion (the entry goes after all entries with deadline ≤ its own). -/
def pqPush (q : List Entry) (e : Entry) : List Entry :=
  match q with
  | [] => [e]
  | x :: rest => if e.deadline < x.deadline then e :: x :: rest else x :: pqPush rest e

/-- State of the `bgRemove` loop: the priority queue `q`, the key→item map
`itemMap`, the timer `t` (absolute fire instant when armed), and the next
fresh item handle. -/
structure BgState where
  queue : List Entry
  itemMap : List (String × Nat)
  timer : Option Int
  nextId : Nat
deriving DecidableEq, Repr

/-- Events the `select` in `bgRemove` can receive (besides `ctx.Done`):
a removal request from `removeCh`, an add-notification from `addCh`, or the
timer firing (`<-t.C`). -/
inductive BgEvent where
  | removeReq (t : Target)
  | addNote (t : Target)
  | timerFire
deriving DecidableEq, Repr

/-- An observable call made by the loop on the external destination. -/
inductive Call where
  | removeTargets (ts : List Target) (now : Int)
deriving DecidableEq, Repr

/-- One iteration of the `bgRemove` `select` loop, translated case-by-case
from `sync.go` lines 64–113.  `now` is the value of `time.Now()` during the
iteration (one-second granularity, so `.Unix()` is the identity); `removeOk`
tells whether a `Dst.RemoveTargets` call made in this iteration succeeds.

* `removeCh`: compute `removeUnixTime = now + RemoveDelay`; if the queue head
  is nil or `removeUnixTime` is below the head priority, reset the timer to
  fire after `RemoveDelay`; then push and index the target.
* `addCh`: if the key is indexed, remove its item from the queue and the index.
* `t.C`: read the head.  If nil, nothing happens (and the timer stays
  unarmed).  Otherwise, if `headUnixTime < now.Unix()` reset the timer to
  `time.Unix(headUnixTime,0).Sub(now)`; else call `RemoveTargets([head])` and
  on success pop and unindex.  In either branch the trailing
  `t.Reset(time.Unix(headUnixTime, 0).Sub(now))` leaves the timer armed at
  the absolute instant `headUnixTime` of the head read at the start. -/
def bgStep (removeDelay : Int) (st : BgState) (now : Int) (ev : BgEvent)
    (removeOk : Bool) : BgState × List Call :=
  match ev with
  | .removeReq toRemove =>
      let removeUnixTime := now + removeDelay
      let timer' :=
        match st.queue.head? with
        | none => some (now + removeDelay)
        | some head => if removeUnixTime < head.deadline then some (now + removeDelay)
            else st.timer
      ({ queue := pqPush st.queue ⟨st.nextId, toRemove, removeUnixTime⟩,
         itemMap := alistInsert st.itemMap toRemove.key st.nextId,
         timer := timer',
         nextId := st.nextId + 1 }, [])
  | .addNote toAdd =>
      match alistLookup st.itemMap toAdd.key with
      | some itemId =>
          ({ st with queue := st.queue.filter (fun e => e.id ≠ itemId),
                     itemMap := alistErase st.itemMap toAdd.key }, [])
      | none => (st, [])
  | .timerFire =>
      match st.queue.head? with
      | none => ({ st with timer := none }, [])
      | some head =>
          if head.deadline < now then
            ({ st with timer := some head.deadline }, [])
          else
            if removeOk then
              ({ st with queue := st.queue.tail,
                         itemMap := alistErase st.itemMap head.target.key,
                         timer := some head.deadline },
               [.removeTargets [head.target] now])
            else
              ({ st with timer := some head.deadline },
               [.removeTargets [head.target] now])

/-- One timed event of a `bgRemove` trace: the instant at which the loop
iteration runs, the event received, and (for iterations that call the
destination) whether `RemoveTargets` succeeds. -/
structure TimedEvent where
  now : Int
  ev : BgEvent
  removeOk : Bool
deriving DecidableEq, Repr

/-- Run the `bgRemove` loop over a trace, accumulating destination calls. -/
def bgRun (removeDelay : Int) (st : BgState) : List TimedEvent → BgState × List Call
  | [] => (st, [])
  | te :: rest =>
      let step := bgStep removeDelay st te.now te.ev te.removeOk
      let r := bgRun removeDelay step.1 rest
      (r.1, step.2 ++ r.2)

/-- Trace validity: instants are non-decreasing (starting from `prev`), and a
`timerFire` event only occurs while the timer is armed, at or after its fire
instant (Go timers fire at or after their deadline; a reset with a
non-positive duration fires immediately). -/
def bgValid (removeDelay : Int) (st : BgState) (prev : Int) : List TimedEvent → Bool
  | [] => true
  | te :: rest =>
      decide (prev ≤ te.now) &&
      (match te.ev with
       | .timerFire =>
           match st.timer with
           | some fireAt => decide (fireAt ≤ te.now)
           | none => false
       | _ => true) &&
      bgValid removeDelay (bgStep removeDelay st te.now te.ev te.removeOk).1 te.now rest

/-- Initial `bgRemove` state at instant `start`: empty queue and index, timer
freshly armed for `defaultDuration = time.Hour` (3600 model-seconds). -/
def bgInit (start : Int) : BgState :=
  { queue := [], itemMap := [], timer := some (start + 3600), nextId := 0 }

/-- Sample target `{IP: "10.0.0.1"}`. -/
def tA : Target := ⟨"10.0.0.1", 0⟩

/-- Sample target `{IP: "10.0.0.2"}`. -/
def tB : Target := ⟨"10.0.0.2", 0⟩

/-- Trace exhibiting the debounce failure (`RemoveDelay = 5`): removal request
for `tA` at instant 0 (deadline 5, timer armed for 5); removal request for
`tB` at instant 2 (deadline 7, timer untouched since 7 ≥ 5); add-notification
for `tA` at instant 3 (cancels `tA`, leaving `tB` at the head); timer fire at
instant 5; add-notification for `tB` at instant 6, before `tB`'s deadline 7. -/
def c1Trace : List TimedEvent :=
  [⟨0, .removeReq tA, true⟩, ⟨2, .removeReq tB, true⟩, ⟨3, .addNote tA, true⟩,
   ⟨5, .timerFire, true⟩, ⟨6, .addNote tB, true⟩]

/-- Trace exhibiting the eventual-removal failure (`RemoveDelay = 5`): removal
request for `tA` at instant 0 (deadline 5); the timer fire is handled at
instant 6, after the deadline has passed, and again at 7 and 100 (the loop
re-arms the timer at the already-past instant 5 each time, so it may fire at
any later instant). -/
def c2Trace : List TimedEvent :=
  [⟨0, .removeReq tA, true⟩, ⟨6, .timerFire, true⟩, ⟨7, .timerFire, true⟩,
   ⟨100, .timerFire, true⟩]

/-- Prefix of `c1Trace` stopping just before the timer fire. -/
def c3TraceFuture : List TimedEvent :=
  [⟨0, .removeReq tA, true⟩, ⟨2, .removeReq tB, true⟩, ⟨3, .addNote tA, true⟩]

/-- Trace whose timer fire at instant 6 finds the head deadline 5 in the past. -/
def c3TracePast : List TimedEvent :=
  [⟨0, .removeReq tA, true⟩, ⟨6, .timerFire, true⟩]

/-- Trace for the timer-reset-after-fire behaviour (`RemoveDelay = 5`):
removal requests for `tA` (deadline 5) and `tB` (deadline 7), then a timer
fire at instant 5 whose `RemoveTargets([tA])` call succeeds and pops `tA`. -/
def c4Trace : List TimedEvent :=
  [⟨0, .removeReq tA, true⟩, ⟨2, .removeReq tB, true⟩, ⟨5, .timerFire, true⟩]

/-- Trace with two removal requests for the same key `tB` and no intervening
add-notification, as `runLeader` produces when a destination target stays
absent from the source across two snapshots before its delayed removal runs. -/
def c5Trace : List TimedEvent :=
  [⟨0, .removeReq tB, true⟩, ⟨1, .removeReq tB, true⟩]

/-- C1 (code bug): on the valid trace `c1Trace`, the removal request for `tB`
is received at instant 2 with deadline 2 + 5 = 7 and an add-notification for
`tB` is received at instant 6 < 7, yet the loop has already issued
`RemoveTargets([tB])` at instant 5 — before `tB`'s own deadline.  The cause is
the inverted comparison `headUnixTime < now.Unix()` in `bgRemove` (line 94),
which contradicts the comment above it (woken-early should reschedule, not
remove). -/
theorem c1_debounce_violated :
    bgValid 5 (bgInit 0) 0 c1Trace = true ∧
    (bgRun 5 (bgInit 0) c1Trace).2 = [Call.removeTargets [tB] 5] ∧
    ((6 : Int) < 2 + 5 ∧ (5 : Int) < 2 + 5) := by
  decide

/-- C2 (code bug): on the valid trace `c2Trace`, a removal for `tA` is
requested at instant 0 with deadline 5 and no add-notification for its key
ever arrives, yet after timer fires at instants 6, 7 and 100 the loop has
issued no `RemoveTargets` call at all and `tA` is still queued: once a fire
observes `headUnixTime < now.Unix()`, the inverted branch re-arms the timer at
the past instant (a non-positive `Reset`) instead of removing, forever. -/
theorem c2_eventual_removal_violated :
    bgValid 5 (bgInit 0) 0 c2Trace = true ∧
    (bgRun 5 (bgInit 0) c2Trace).2 = [] ∧
    (bgRun 5 (bgInit 0) c2Trace).1.queue = [⟨0, tA, 5⟩] := by
  decide

/-- C3 (code bug): at a timer fire the code takes the two branches backwards.
After `c3TraceFuture` the head is `tB` with deadline 7; a valid fire at
instant 5 (deadline still in the future) issues `RemoveTargets([tB])` and pops
it instead of rescheduling.  After `c3TracePast`'s first event the head is
`tA` with deadline 5; a valid fire at instant 6 (deadline reached and passed)
issues no call and leaves the entry in place instead of attempting removal. -/
theorem c3_timer_branching_inverted :
    (bgValid 5 (bgInit 0) 0 (c3TraceFuture ++ [⟨5, .timerFire, true⟩]) = true ∧
     (bgRun 5 (bgInit 0) c3TraceFuture).1.queue.head? = some ⟨1, tB, 7⟩ ∧
     (5 : Int) < 7 ∧
     (bgRun 5 (bgInit 0) (c3TraceFuture ++ [⟨5, .timerFire, true⟩])).2 =
       [Call.removeTargets [tB] 5] ∧
     (bgRun 5 (bgInit 0) (c3TraceFuture ++ [⟨5, .timerFire, true⟩])).1.queue = []) ∧
    (bgValid 5 (bgInit 0) 0 c3TracePast = true ∧
     (5 : Int) < 6 ∧
     (bgRun 5 (bgInit 0) c3TracePast).2 = [] ∧
     (bgRun 5 (bgInit 0) c3TracePast).1.queue = [⟨0, tA, 5⟩]) := by
  decide

/-- C4 counterexample: on the valid trace `c4Trace` the fire at instant 5
succeeds and pops `tA`, after which the queue is non-empty with new earliest
deadline 7 (entry `tB`), yet the timer is re-armed at instant 5 — the popped
entry's deadline, not the queue's new earliest deadline as the claim states. -/
theorem c4_timer_reset_not_new_head :
    bgValid 5 (bgInit 0) 0 c4Trace = true ∧
    (bgRun 5 (bgInit 0) c4Trace).1.queue = [⟨1, tB, 7⟩] ∧
    (bgRun 5 (bgInit 0) c4Trace).1.timer = some 5 ∧
    ((5 : Int) ≠ 7) := by
  decide

/-- C4 amended: after a timer-fire iteration, the timer is armed at the
absolute deadline of the entry that was at the head when the fire was handled
(pre-pop), regardless of whether a removal was attempted, succeeded or failed;
when the queue is empty at the fire, the timer is left unarmed (the hour-long
default interval is used only for the initial timer) until the next removal
request re-arms it. -/
theorem c4_amended_timer_reset (removeDelay : Int) (st : BgState) (now : Int)
    (ok : Bool) :
    (st.queue.head? = none →
      (bgStep removeDelay st now .timerFire ok).1.timer = none) ∧
    (∀ e : Entry, st.queue.head? = some e →
      (bgStep removeDelay st now .timerFire ok).1.timer = some e.deadline) := by
  constructor
  · intro h
    simp only [bgStep, h]
  · intro e h
    simp only [bgStep, h]
    by_cases hd : e.deadline < now
    · simp [hd]
    · by_cases hok : ok = true <;> simp [hd, hok]

/-- Concrete two-entry state used to instantiate `c4_amended_timer_reset`. -/
def c4State : BgState :=
  { queue := [⟨0, tA, 5⟩, ⟨1, tB, 7⟩],
    itemMap := [("10.0.0.1", 0), ("10.0.0.2", 1)],
    timer := some 5, nextId := 2 }

/-- Closed instance of `c4_amended_timer_reset`: an empty-queue fire leaves
the timer unarmed, and a fire with head `⟨0, tA, 5⟩` re-arms it at 5. -/
theorem c4_amended_timer_reset_witness :
    (bgStep 5 (bgInit 0) 4000 .timerFire true).1.timer = none ∧
    (bgStep 5 c4State 5 .timerFire true).1.timer = some 5 :=
  ⟨(c4_amended_timer_reset 5 (bgInit 0) 4000 true).1 rfl,
   (c4_amended_timer_reset 5 c4State 5 true).2 ⟨0, tA, 5⟩ rfl⟩

/-- C5 counterexample: after the valid trace `c5Trace` — two removal requests
for the key `"10.0.0.2"` with no intervening add-notification, as `runLeader`
produces when a destination target stays absent from the source across two
snapshots — the priority queue holds two entries with that key, refuting the
at-most-once invariant as stated. -/
theorem c5_duplicate_key_in_queue :
    bgValid 5 (bgInit 0) 0 c5Trace = true ∧
    ((bgRun 5 (bgInit 0) c5Trace).1.queue.filter
      (fun e => e.target.key = "10.0.0.2")).length = 2 := by
  decide

/-! ### Queue/index consistency under separated traces (amended C5) -/

/-- No removal request for key `k` occurs in the trace before an
add-notification for `k` does. -/
def noRepeatUntilAdd (k : String) : List TimedEvent → Bool
  | [] => true
  | te :: rest =>
      match te.ev with
      | .removeReq t => if t.key = k then false else noRepeatUntilAdd k rest
      | .addNote t => if t.key = k then true else noRepeatUntilAdd k rest
      | .timerFire => noRepeatUntilAdd k rest

/-- A trace is separated when after every removal request, no second removal
request for the same key occurs before an add-notification for that key. -/
def separated : List TimedEvent → Bool
  | [] => true
  | te :: rest =>
      (match te.ev with
       | .removeReq t => noRepeatUntilAdd t.key rest
       | _ => true) && separated rest

/-- The entries currently queued under key `k`. -/
def keyEntries (st : BgState) (k : String) : List Entry :=
  st.queue.filter (fun e => e.target.key = k)

/-- Consistency of the priority queue with the key index: queued item ids are
fresh-bounded and pairwise distinct, and every key either has no queued entry
and no index record, or exactly one queued entry whose id the index records. -/
def QIndexInv (st : BgState) : Prop :=
  (∀ e ∈ st.queue, e.id < st.nextId) ∧
  st.queue.Pairwise (fun a b => a.id ≠ b.id) ∧
  ∀ k : String,
    (keyEntries st k = [] ∧ alistLookup st.itemMap k = none) ∨
    ∃ e : Entry, keyEntries st k = [e] ∧ alistLookup st.itemMap k = some e.id

theorem pqPush_perm (q : List Entry) (e : Entry) :
    List.Perm (pqPush q e) (e :: q) := by
  induction q with
  | nil => exact List.Perm.refl _
  | cons x rest ih =>
      by_cases h : e.deadline < x.deadline
      · simp [pqPush, h]
      · simp only [pqPush, if_neg h]
        exact (ih.cons x).trans (List.Perm.swap e x rest)

theorem mem_pqPush {q : List Entry} {e x : Entry} :
    x ∈ pqPush q e ↔ x = e ∨ x ∈ q := by
  simpa using (pqPush_perm q e).mem_iff (a := x)

theorem alistLookup_erase {α : Type} (m : List (String × α)) (k k' : String) :
    alistLookup (alistErase m k) k' =
      if k = k' then none else alistLookup m k' := by
  induction m with
  | nil => simp [alistErase, alistLookup]
  | cons p rest ih =>
      by_cases hp : p.1 = k
      · have h1 : alistErase (p :: rest) k = alistErase rest k := by
          simp [alistErase, hp]
        rw [h1, ih]
        by_cases hk : k = k'
        · simp [hk]
        · have hpk : ¬ p.1 = k' := by rw [hp]; exact hk
          simp [alistLookup, hk, hpk]
      · have h1 : alistErase (p :: rest) k = p :: alistErase rest k := by
          simp [alistErase, hp]
        rw [h1]
        by_cases hpk : p.1 = k'
        · have hk : ¬ k = k' := fun h => hp (h ▸ hpk)
          simp [alistLookup, hpk, hk]
        · simp [alistLookup, hpk, ih]

theorem alistLookup_insert {α : Type} (m : List (String × α)) (k k' : String)
    (v : α) :
    alistLookup (alistInsert m k v) k' =
      if k = k' then some v else alistLookup m k' := by
  by_cases hk : k = k' <;>
    simp [alistInsert, alistLookup, hk, alistLookup_erase]

theorem filter_swap (l : List Entry) (p q : Entry → Bool) :
    (l.filter p).filter q = (l.filter q).filter p := by
  simp [List.filter_filter, Bool.and_comm]

theorem idNeSymm : Symmetric (fun a b : Entry => a.id ≠ b.id) :=
  fun _ _ h => Ne.symm h

theorem qindex_inv_removeReq (removeDelay : Int) (st : BgState) (now : Int)
    (t : Target) (ok : Bool) (hInv : QIndexInv st)
    (hnone : alistLookup st.itemMap t.key = none) :
    QIndexInv (bgStep removeDelay st now (.removeReq t) ok).1 := by
  obtain ⟨hBound, hPW, hKeys⟩ := hInv
  have hKfresh : keyEntries st t.key = [] := by
    rcases hKeys t.key with ⟨h1, _⟩ | ⟨e, _, h2⟩
    · exact h1
    · rw [hnone] at h2; cases h2
  refine ⟨?_, ?_, ?_⟩
  · intro e he
    simp only [bgStep] at he ⊢
    rcases mem_pqPush.mp he with rfl | he'
    · exact Nat.lt_succ_self _
    · exact Nat.lt_succ_of_lt (hBound e he')
  · simp only [bgStep]
    refine ((pqPush_perm st.queue _).pairwise_iff ?_).mpr ?_
    · intro a b hab
      exact Ne.symm hab
    · exact List.pairwise_cons.mpr
        ⟨fun b hb => (ne_of_lt (hBound b hb)).symm, hPW⟩
  · intro k
    by_cases hk : t.key = k
    · subst hk
      right
      refine ⟨⟨st.nextId, t, now + removeDelay⟩, ?_, ?_⟩
      · refine List.perm_singleton.mp ?_
        have hp : List.Perm
            (keyEntries (bgStep removeDelay st now (.removeReq t) ok).1 t.key)
            (List.filter (fun e => decide (e.target.key = t.key))
              (⟨st.nextId, t, now + removeDelay⟩ :: st.queue)) := by
          simp only [bgStep, keyEntries]
          exact (pqPush_perm st.queue _).filter _
        refine hp.trans ?_
        have hfil : List.filter (fun e => decide (e.target.key = t.key))
            (⟨st.nextId, t, now + removeDelay⟩ :: st.queue) =
            [⟨st.nextId, t, now + removeDelay⟩] := by
          simp only [List.filter_cons]
          simp [keyEntries] at hKfresh
          simp
          exact hKfresh
        rw [hfil]
      · simp only [bgStep]
        rw [alistLookup_insert]
        simp
    · have hlk : alistLookup
          (bgStep removeDelay st now (.removeReq t) ok).1.itemMap k =
          alistLookup st.itemMap k := by
        simp only [bgStep]
        rw [alistLookup_insert, if_neg hk]
      have hp : List.Perm
          (keyEntries (bgStep removeDelay st now (.removeReq t) ok).1 k)
          (keyEntries st k) := by
        simp only [bgStep, keyEntries]
        refine ((pqPush_perm st.queue _).filter _).trans ?_
        simp only [List.filter_cons]
        simp [hk]
      rcases hKeys k with ⟨h1, h2⟩ | ⟨e, h1, h2⟩
      · left
        refine ⟨?_, by rw [hlk]; exact h2⟩
        exact (hp.trans (by rw [h1])).eq_nil
      · right
        refine ⟨e, ?_, by rw [hlk]; exact h2⟩
        exact List.perm_singleton.mp (hp.trans (by rw [h1]))

theorem qindex_inv_addNote (removeDelay : Int) (st : BgState) (now : Int)
    (t : Target) (ok : Bool) (hInv : QIndexInv st) :
    QIndexInv (bgStep removeDelay st now (.addNote t) ok).1 := by
  obtain ⟨hBound, hPW, hKeys⟩ := hInv
  cases hm : alistLookup st.itemMap t.key with
  | none =>
      simp only [bgStep, hm]
      exact ⟨hBound, hPW, hKeys⟩
  | some itemId =>
      rcases hKeys t.key with ⟨_, h2⟩ | ⟨e, hfe, hle⟩
      · rw [hm] at h2; cases h2
      rw [hm] at hle
      injection hle with hid
      subst hid
      have heq : e ∈ st.queue ∧ e.target.key = t.key := by
        have : e ∈ keyEntries st t.key := by rw [hfe]; exact List.mem_singleton_self e
        have h := List.mem_filter.mp this
        exact ⟨h.1, of_decide_eq_true h.2⟩
      simp only [bgStep, hm]
      refine ⟨?_, ?_, ?_⟩
      · intro x hx
        exact hBound x (List.mem_of_mem_filter hx)
      · exact hPW.sublist (List.filter_sublist _)
      · intro k
        by_cases hk : t.key = k
        · subst hk
          left
          constructor
          · show (List.filter (fun x => decide ¬x.id = e.id) st.queue).filter
                (fun x => decide (x.target.key = t.key)) = []
            rw [filter_swap]
            have : List.filter (fun x => decide (x.target.key = t.key)) st.queue =
                [e] := hfe
            rw [this]
            simp
          · rw [alistLookup_erase]
            simp
        · have hlk : alistLookup (alistErase st.itemMap t.key) k =
              alistLookup st.itemMap k := by
            rw [alistLookup_erase, if_neg hk]
          have hq : (List.filter (fun x => decide ¬x.id = e.id) st.queue).filter
              (fun x => decide (x.target.key = k)) = keyEntries st k := by
            rw [filter_swap]
            refine List.filter_eq_self.mpr ?_
            intro a ha
            have hmem := List.mem_filter.mp ha
            have hak : a.target.key = k := of_decide_eq_true hmem.2
            have hane : a ≠ e := by
              intro h
              exact hk (by rw [← heq.2, ← h, hak])
            have := hPW.forall idNeSymm hmem.1 heq.1 hane
            simpa using this
          rcases hKeys k with ⟨h1, h2⟩ | ⟨x, h1, h2⟩
          · left
            refine ⟨?_, by rw [hlk]; exact h2⟩
            show (List.filter (fun x => decide ¬x.id = e.id) st.queue).filter
                (fun x => decide (x.target.key = k)) = []
            rw [hq]; exact h1
          · right
            refine ⟨x, ?_, by rw [hlk]; exact h2⟩
            show (List.filter (fun y => decide ¬y.id = e.id) st.queue).filter
                (fun y => decide (y.target.key = k)) = [x]
            rw [hq]; exact h1

theorem qindex_inv_timerFire (removeDelay : Int) (st : BgState) (now : Int)
    (ok : Bool) (hInv : QIndexInv st) :
    QIndexInv (bgStep removeDelay st now .timerFire ok).1 := by
  obtain ⟨hBound, hPW, hKeys⟩ := hInv
  rcases hq : st.queue with _ | ⟨x, xs⟩
  · simp only [bgStep, hq, List.head?_nil]
    rw [hq] at hBound hPW
    refine ⟨hBound, hPW, ?_⟩
    intro k
    have := hKeys k
    simpa [keyEntries, hq] using this
  · simp only [bgStep, hq, List.head?_cons]
    by_cases hd : x.deadline < now
    · rw [if_pos hd]
      rw [hq] at hBound hPW
      refine ⟨hBound, hPW, ?_⟩
      intro k
      have := hKeys k
      simpa [keyEntries, hq] using this
    · rw [if_neg hd]
      cases ok with
      | false =>
          simp only [Bool.false_eq_true, if_false]
          rw [hq] at hBound hPW
          refine ⟨hBound, hPW, ?_⟩
          intro k
          have := hKeys k
          simpa [keyEntries, hq] using this
      | true =>
          simp only [if_true]
          rw [hq] at hBound hPW
          have hxmem : x ∈ keyEntries st x.target.key := by
            simp [keyEntries, hq]
          rcases hKeys x.target.key with ⟨h1, _⟩ | ⟨e, h1, h2⟩
          · rw [h1] at hxmem; cases hxmem
          have hxe : x = e := by
            rw [h1] at hxmem
            exact List.mem_singleton.mp hxmem
          subst hxe
          have hxs : List.filter (fun y => decide (y.target.key = x.target.key)) xs
              = [] := by
            have : keyEntries st x.target.key =
                x :: List.filter (fun y => decide (y.target.key = x.target.key)) xs := by
              simp [keyEntries, hq]
            rw [this] at h1
            injection h1
          refine ⟨?_, ?_, ?_⟩
          · intro y hy
            exact hBound y (List.mem_cons_of_mem x hy)
          · exact (List.pairwise_cons.mp hPW).2
          · intro k
            by_cases hk : x.target.key = k
            · subst hk
              left
              refine ⟨?_, ?_⟩
              · simpa [keyEntries] using hxs
              · rw [alistLookup_erase]
                simp
            · have hlk : alistLookup (alistErase st.itemMap x.target.key) k =
                  alistLookup st.itemMap k := by
                rw [alistLookup_erase, if_neg hk]
              have hrest : keyEntries st k =
                  List.filter (fun y => decide (y.target.key = k)) xs := by
                simp [keyEntries, hq, List.filter_cons, hk]
              rcases hKeys k with ⟨h1, h2⟩ | ⟨e, h1, h2⟩
              · left
                refine ⟨?_, by rw [hlk]; exact h2⟩
                show List.filter (fun y => decide (y.target.key = k)) ((x :: xs).tail) = []
                simp only [List.tail_cons]
                rw [← hrest]
                exact h1
              · right
                refine ⟨e, ?_, by rw [hlk]; exact h2⟩
                show List.filter (fun y => decide (y.target.key = k)) ((x :: xs).tail) = [e]
                simp only [List.tail_cons]
                rw [← hrest]
                exact h1

theorem bgStep_pending (removeDelay : Int) (st : BgState) (te : TimedEvent)
    (rest : List TimedEvent)
    (hPend : ∀ k : String, (alistLookup st.itemMap k).isSome = true →
      noRepeatUntilAdd k (te :: rest) = true)
    (hSep : separated (te :: rest) = true) :
    ∀ k : String,
      (alistLookup
        (bgStep removeDelay st te.now te.ev te.removeOk).1.itemMap k).isSome =
          true →
      noRepeatUntilAdd k rest = true := by
  obtain ⟨now, ev, ok⟩ := te
  intro k hk
  cases ev with
  | removeReq t =>
      by_cases hkt : t.key = k
      · subst hkt
        simp only [separated, Bool.and_eq_true] at hSep
        exact hSep.1
      · have : (alistLookup st.itemMap k).isSome = true := by
          simp only [bgStep] at hk
          rwa [alistLookup_insert, if_neg hkt] at hk
        have h := hPend k this
        simpa [noRepeatUntilAdd, hkt] using h
  | addNote t =>
      cases hm : alistLookup st.itemMap t.key with
      | some itemId =>
          simp only [bgStep, hm] at hk
          rw [alistLookup_erase] at hk
          by_cases hkt : t.key = k
          · rw [if_pos hkt] at hk
            cases hk
          · rw [if_neg hkt] at hk
            have h := hPend k hk
            simpa [noRepeatUntilAdd, hkt] using h
      | none =>
          simp only [bgStep, hm] at hk
          have hkt : ¬ t.key = k := by
            intro heq
            rw [heq] at hm
            rw [hm] at hk
            simp at hk
          have h := hPend k hk
          simpa [noRepeatUntilAdd, hkt] using h
  | timerFire =>
      have hst : (alistLookup st.itemMap k).isSome = true := by
        simp only [bgStep] at hk
        rcases hq : st.queue with _ | ⟨x, xs⟩
        · rw [hq] at hk
          simpa using hk
        · rw [hq] at hk
          simp only [List.head?_cons] at hk
          by_cases hd : x.deadline < now
          · rw [if_pos hd] at hk
            exact hk
          · rw [if_neg hd] at hk
            cases ok with
            | false => simpa using hk
            | true =>
                simp only [if_true] at hk
                rw [alistLookup_erase] at hk
                by_cases hkt : x.target.key = k
                · rw [if_pos hkt] at hk
                  cases hk
                · rwa [if_neg hkt] at hk
      have h := hPend k hst
      simpa [noRepeatUntilAdd] using h

theorem bgRun_qindex_inv (removeDelay : Int) :
    ∀ (tr : List TimedEvent) (st : BgState), QIndexInv st →
      (∀ k : String, (alistLookup st.itemMap k).isSome = true →
        noRepeatUntilAdd k tr = true) →
      separated tr = true →
      QIndexInv (bgRun removeDelay st tr).1 := by
  intro tr
  induction tr with
  | nil =>
      intro st hInv _ _
      simpa [bgRun] using hInv
  | cons te rest ih =>
      intro st hInv hPend hSep
      have hrun : (bgRun removeDelay st (te :: rest)).1 =
          (bgRun removeDelay
            (bgStep removeDelay st te.now te.ev te.removeOk).1 rest).1 := by
        simp [bgRun]
      rw [hrun]
      have hSepRest : separated rest = true := by
        simp only [separated, Bool.and_eq_true] at hSep
        exact hSep.2
      refine ih _ ?_ (bgStep_pending removeDelay st te rest hPend hSep) hSepRest
      obtain ⟨now, ev, ok⟩ := te
      cases ev with
      | removeReq t =>
          refine qindex_inv_removeReq removeDelay st now t ok hInv ?_
          cases hm : alistLookup st.itemMap t.key with
          | none => rfl
          | some itemId =>
              have hs : (alistLookup st.itemMap t.key).isSome = true := by
                rw [hm]; rfl
              have h := hPend t.key hs
              simp [noRepeatUntilAdd] at h
      | addNote t => exact qindex_inv_addNote removeDelay st now t ok hInv
      | timerFire => exact qindex_inv_timerFire removeDelay st now ok hInv

theorem noRepeatUntilAdd_append_left {k : String} {a b : List TimedEvent}
    (h : noRepeatUntilAdd k (a ++ b) = true) : noRepeatUntilAdd k a = true := by
  induction a with
  | nil => rfl
  | cons te rest ih =>
      obtain ⟨now, ev, ok⟩ := te
      cases ev with
      | removeReq t =>
          by_cases hk : t.key = k
          · simp [noRepeatUntilAdd, hk] at h
          · simp only [List.cons_append, noRepeatUntilAdd, if_neg hk] at h ⊢
            exact ih h
      | addNote t =>
          by_cases hk : t.key = k
          · simp [noRepeatUntilAdd, hk]
          · simp only [List.cons_append, noRepeatUntilAdd, if_neg hk] at h ⊢
            exact ih h
      | timerFire =>
          simp only [List.cons_append, noRepeatUntilAdd] at h ⊢
          exact ih h

theorem separated_append_left {a b : List TimedEvent}
    (h : separated (a ++ b) = true) : separated a = true := by
  induction a with
  | nil => rfl
  | cons te rest ih =>
      obtain ⟨now, ev, ok⟩ := te
      simp only [List.cons_append, separated, Bool.and_eq_true] at h ⊢
      refine ⟨?_, ih h.2⟩
      cases ev with
      | removeReq t => exact noRepeatUntilAdd_append_left h.1
      | addNote t => rfl
      | timerFire => rfl

/-- C5 amended: the at-most-one-entry-per-key invariant (with a consistent
key index) holds at every point of any trace that is *separated* — after each
removal request for a key, no second removal request for that key arrives
before an add-notification for it.  The spec claims this for every sequence
the loop may receive; the counterexample shows it fails without separation,
which `runLeader` does not guarantee (it resends a removal request for a
destination target that stays absent from the source across two snapshots
while the delayed removal is still pending). -/
theorem c5_amended_key_unique (removeDelay start : Int)
    (tr rest : List TimedEvent) (hSep : separated (tr ++ rest) = true) :
    QIndexInv (bgRun removeDelay (bgInit start) tr).1 ∧
    ∀ k : String,
      (keyEntries (bgRun removeDelay (bgInit start) tr).1 k).length ≤ 1 := by
  have h1 : separated tr = true := separated_append_left hSep
  have hInv0 : QIndexInv (bgInit start) := by
    refine ⟨?_, ?_, ?_⟩
    · intro e he
      cases he
    · exact List.Pairwise.nil
    · intro k
      left
      exact ⟨rfl, rfl⟩
  have hPend0 : ∀ k : String,
      (alistLookup (bgInit start).itemMap k).isSome = true →
      noRepeatUntilAdd k tr = true := by
    intro k hk
    cases hk
  have hInv := bgRun_qindex_inv removeDelay tr (bgInit start) hInv0 hPend0 h1
  refine ⟨hInv, ?_⟩
  intro k
  rcases hInv.2.2 k with ⟨hke, _⟩ | ⟨e, hke, _⟩
  · rw [keyEntries] at hke
    rw [keyEntries, hke]
    exact Nat.zero_le 1
  · rw [keyEntries] at hke
    rw [keyEntries, hke]
    exact Nat.le_refl 1

/-- Separated trace instantiating `c5_amended_key_unique`: a removal request
for `tB`, a cancelling add-notification for it, then a fresh removal request. -/
def c5SepTrace : List TimedEvent :=
  [⟨0, .removeReq tB, true⟩, ⟨1, .addNote tB, true⟩, ⟨2, .removeReq tB, true⟩]

/-- Closed instance of `c5_amended_key_unique` on `c5SepTrace`. -/
theorem c5_amended_key_unique_witness :
    separated (c5SepTrace ++ []) = true ∧
    (QIndexInv (bgRun 5 (bgInit 0) c5SepTrace).1 ∧
     ∀ k : String, (keyEntries (bgRun 5 (bgInit 0) c5SepTrace).1 k).length ≤ 1) :=
  ⟨by decide, c5_amended_key_unique 5 0 c5SepTrace [] (by decide)⟩

/-! ### The leader-election loop (`Syncer.Run`) -/

/-- State of `Run`'s loop: one cell per leader scope started so far (`true`
while that scope's context is uncancelled), and the index of the scope the
current `leaderCtxCancel` refers to (`none` while `leaderCtxCancel` is nil). -/
structure RunState where
  scopes : List Bool
  handle : Option Nat
deriving DecidableEq, Repr

/-- State of `Run` before any election signal: no scope started, nil cancel. -/
def runInit : RunState := { scopes := [], handle := none }

/-- Calling `leaderCtxCancel()` — cancels the scope the handle refers to, a
no-op when the handle is nil. -/
def cancelHandle (st : RunState) : RunState :=
  match st.handle with
  | some i => { st with scopes := st.scopes.set i false }
  | none => st

/-- One iteration of `Run`'s loop on an election signal (`sync.go` 39–49):
on `true`, derive a fresh cancellable leader context, overwrite
`leaderCtxCancel` with its cancel function, and start `runLeader` in it with
`go` (the previously started scope, if any, is not cancelled); on `false`,
call `leaderCtxCancel()` if non-nil. -/
def runStep (st : RunState) (elected : Bool) : RunState :=
  if elected then
    { scopes := st.scopes ++ [true], handle := some st.scopes.length }
  else
    cancelHandle st

/-- Process a sequence of election signals in delivery order. -/
def runSignals (st : RunState) : List Bool → RunState
  | [] => st
  | b :: rest => runSignals (runStep st b) rest

/-- Number of leader scopes currently active (started and not cancelled). -/
def activeScopes (st : RunState) : Nat := st.scopes.count true

/-- Signal sequences in which two `true` signals never occur without an
intervening `false`; `armed` records whether a `true` is currently allowed. -/
def altOk (armed : Bool) : List Bool → Bool
  | [] => true
  | true :: rest => armed && altOk false rest
  | false :: rest => altOk true rest

/-- C6 counterexample: two consecutive `true` election signals leave two
leader scopes active at once, and a subsequent `false` cancels only the
second — the first scope started is never cancelled — refuting both the
at-most-one-active-scope part and the previously-started-scope-is-cancelled
part of the claim as stated over every signal sequence. -/
theorem c6_two_true_signals_two_scopes :
    activeScopes (runSignals runInit [true, true]) = 2 ∧
    (runSignals runInit [true, true, false]).scopes = [true, false] := by
  decide

theorem getD_false_of_not_mem {l : List Bool} (h : true ∉ l) (j : Nat) :
    l.getD j false = false := by
  induction l generalizing j with
  | nil => simp
  | cons b rest ih =>
      cases j with
      | zero =>
          cases b
          · simp
          · exact absurd (List.mem_cons_self _ _) h
      | succ m =>
          have hr : true ∉ rest := fun hm => h (List.mem_cons_of_mem b hm)
          simpa using ih hr m

theorem count_true_eq_zero_of_all_false :
    ∀ l : List Bool, (∀ j : Nat, l.getD j false = false) → l.count true = 0 := by
  intro l
  induction l with
  | nil => intro _; rfl
  | cons b rest ih =>
      intro h
      have hb : b = false := by simpa using h 0
      have hrest : ∀ j : Nat, rest.getD j false = false := fun j => by
        simpa using h (j + 1)
      subst hb
      simpa [List.count_cons] using ih hrest

theorem count_true_le_one_of_unique :
    ∀ (l : List Bool) (i : Nat),
      (∀ j : Nat, j ≠ i → l.getD j false = false) → l.count true ≤ 1 := by
  intro l
  induction l with
  | nil => intro i _; simp
  | cons b rest ih =>
      intro i h
      cases i with
      | zero =>
          have hrest : ∀ j : Nat, rest.getD j false = false := fun j => by
            simpa using h (j + 1) (Nat.succ_ne_zero j)
          have h0 := count_true_eq_zero_of_all_false rest hrest
          cases b <;> simp [List.count_cons, h0]
      | succ n =>
          have hb : b = false := by
            simpa using h 0 (Nat.zero_ne_add_one n)
          have hrest : ∀ j : Nat, j ≠ n → rest.getD j false = false :=
            fun j hj => by
              simpa using h (j + 1) (fun hc => hj (Nat.succ_injective hc))
          subst hb
          simpa [List.count_cons] using ih n hrest

theorem getD_set_false_all :
    ∀ (l : List Bool) (i : Nat),
      (∀ j : Nat, j ≠ i → l.getD j false = false) →
      ∀ j : Nat, (l.set i false).getD j false = false := by
  intro l
  induction l with
  | nil => intro i _ j; simp
  | cons b rest ih =>
      intro i h j
      cases i with
      | zero =>
          cases j with
          | zero => simp
          | succ m => simpa using h (m + 1) (Nat.succ_ne_zero m)
      | succ n =>
          cases j with
          | zero => simpa using h 0 (Nat.zero_ne_add_one n)
          | succ m =>
              have hrest : ∀ j2 : Nat, j2 ≠ n → rest.getD j2 false = false :=
                fun j2 hj2 => by
                  simpa using h (j2 + 1) (fun hc => hj2 (Nat.succ_injective hc))
              simpa using ih n hrest m

/-- Loop invariant tying `Run`'s cancel handle to the started scopes: while a
`true` signal is allowed (`armed`), no scope is active; any active scope is
the one the handle refers to; and a nil handle means no scope is active. -/
def WInv (armed : Bool) (st : RunState) : Prop :=
  (armed = true → st.scopes.count true = 0) ∧
  (∀ i : Nat, st.handle = some i →
    ∀ j : Nat, j ≠ i → st.scopes.getD j false = false) ∧
  (st.handle = none → st.scopes.count true = 0)

theorem WInv_active_le_one {armed : Bool} {st : RunState} (h : WInv armed st) :
    activeScopes st ≤ 1 := by
  rcases hh : st.handle with _ | i
  · rw [activeScopes, h.2.2 hh]
    exact Nat.zero_le 1
  · exact count_true_le_one_of_unique st.scopes i (h.2.1 i hh)

theorem WInv_step_true {st : RunState} (h : WInv true st) :
    WInv false (runStep st true) := by
  have hzero : st.scopes.count true = 0 := h.1 rfl
  have hmem : true ∉ st.scopes := List.count_eq_zero.mp hzero
  refine ⟨?_, ?_, ?_⟩
  · intro hc
    cases hc
  swap
  · intro hc
    simp [runStep] at hc
  intro i hi j hj
  simp only [runStep, if_true] at hi ⊢
  injection hi with hi
  subst hi
  by_cases hjl : j < st.scopes.length
  · rw [List.getD_append _ _ _ _ hjl]
    exact getD_false_of_not_mem hmem j
  · have hge : st.scopes.length + 1 ≤ j := by omega
    apply List.getD_eq_default
    simpa using hge

theorem WInv_step_false {armed : Bool} {st : RunState} (h : WInv armed st) :
    WInv true (runStep st false) := by
  simp only [runStep, if_neg (by simp : ¬ (false = true))]
  rcases hh : st.handle with _ | i
  · simp only [cancelHandle, hh]
    exact ⟨fun _ => h.2.2 hh, h.2.1, fun _ => h.2.2 hh⟩
  · have hall : ∀ j : Nat, (st.scopes.set i false).getD j false = false :=
      getD_set_false_all st.scopes i (h.2.1 i hh)
    have hzero : (st.scopes.set i false).count true = 0 :=
      count_true_eq_zero_of_all_false _ hall
    simp only [cancelHandle, hh]
    exact ⟨fun _ => hzero, fun i2 _ j _ => hall j, fun _ => hzero⟩

theorem runSignals_WInv :
    ∀ (sigs : List Bool) (armed : Bool) (st : RunState),
      WInv armed st → altOk armed sigs = true →
      activeScopes (runSignals st sigs) ≤ 1 := by
  intro sigs
  induction sigs with
  | nil =>
      intro armed st h _
      exact WInv_active_le_one h
  | cons b rest ih =>
      intro armed st h halt
      simp only [runSignals]
      cases b with
      | true =>
          simp only [altOk, Bool.and_eq_true] at halt
          have harmed : armed = true := halt.1
          subst harmed
          exact ih false _ (WInv_step_true h) halt.2
      | false =>
          simp only [altOk] at halt
          exact ih true _ (WInv_step_false h) halt

theorem altOk_append_left :
    ∀ {a b : List Bool} {armed : Bool}, altOk armed (a ++ b) = true →
      altOk armed a = true := by
  intro a
  induction a with
  | nil => intro b armed _; rfl
  | cons s rest ih =>
      intro b armed h
      cases s with
      | true =>
          simp only [List.cons_append, altOk, Bool.and_eq_true] at h ⊢
          exact ⟨h.1, ih h.2⟩
      | false =>
          simp only [List.cons_append, altOk] at h ⊢
          exact ih h

theorem runSignals_scopes_length :
    ∀ (sigs : List Bool) (st : RunState),
      (runSignals st sigs).scopes.length =
        st.scopes.length + sigs.count true := by
  intro sigs
  induction sigs with
  | nil => intro st; simp [runSignals]
  | cons b rest ih =>
      intro st
      simp only [runSignals]
      rw [ih]
      cases b with
      | true =>
          simp [runStep, List.count_cons]
          omega
      | false =>
          rcases hh : st.handle with _ | i <;>
            simp [runStep, cancelHandle, hh, List.count_cons]

/-- C6 amended: a new leader scope is started exactly on each `true` signal
(the number of scopes ever started equals the number of `true` signals), and
a `false` signal or parent cancellation cancels only the most recently
started scope; consequently at most one scope is active at every point of any
election-signal sequence in which two `true` signals never arrive without an
intervening `false`.  With consecutive `true` signals the earlier scope stays
active uncancelled (see the counterexample). -/
theorem c6_amended_single_scope (pre suf : List Bool)
    (halt : altOk true (pre ++ suf) = true) :
    activeScopes (runSignals runInit pre) ≤ 1 ∧
    (runSignals runInit pre).scopes.length = pre.count true := by
  have h1 : altOk true pre = true := altOk_append_left halt
  have hW : WInv true runInit := by
    refine ⟨fun _ => rfl, ?_, fun _ => rfl⟩
    intro i h
    cases h
  refine ⟨runSignals_WInv pre true runInit hW h1, ?_⟩
  simpa [runInit] using runSignals_scopes_length pre runInit

/-- Closed instance of `c6_amended_single_scope` on `[true, false, true]`. -/
theorem c6_amended_single_scope_witness :
    altOk true ([true, false, true] ++ []) = true ∧
    (activeScopes (runSignals runInit [true, false, true]) ≤ 1 ∧
     (runSignals runInit [true, false, true]).scopes.length =
       [true, false, true].count true) :=
  ⟨by decide, c6_amended_single_scope [true, false, true] [] (by decide)⟩

/-- The body of `Run` after a successful `Lock`, driven by the delivered
election signals, each paired with the error the `runLeader` goroutine it may
start would eventually return.  `go s.runLeader(leaderCtx)` discards that
return value, so the pair's second component is consumed but never read.
The trace ends when the parent context is cancelled: the `ctx.Done()` case
calls `leaderCtxCancel()` if non-nil and returns `ctx.Err()`. -/
def runLoop (st : RunState) (ctxErr : String) :
    List (Bool × Option String) → String × RunState
  | [] => (ctxErr, cancelHandle st)
  | ev :: rest => runLoop (runStep st ev.1) ctxErr rest

/-- `Syncer.Run`: `Lock` first — on error return it immediately — then the
election loop until parent cancellation. -/
def runSyncer (lockRes : Option String) (ctxErr : String)
    (evs : List (Bool × Option String)) : String × RunState :=
  match lockRes with
  | some e => (e, runInit)
  | none => runLoop runInit ctxErr evs

theorem runLoop_eq :
    ∀ (evs : List (Bool × Option String)) (st : RunState) (c : String),
      runLoop st c evs = (c, cancelHandle (runSignals st (evs.map Prod.fst))) := by
  intro evs
  induction evs with
  | nil => intro st c; rfl
  | cons ev rest ih =>
      intro st c
      simp only [runLoop, List.map_cons, runSignals]
      exact ih (runStep st ev.1) c

/-- C10: once `Lock` has succeeded, `Run` returns only the parent context's
cancellation error; the loop processes every election signal (its final state
is a function of the signals alone), and the errors the started `runLeader`
goroutines return are discarded — two runs whose signal sequences agree
behave identically whatever those errors are. -/
theorem c10_run_returns_only_ctx_err (ctxErr : String)
    (evs evs2 : List (Bool × Option String))
    (h : evs.map Prod.fst = evs2.map Prod.fst) :
    (runSyncer none ctxErr evs).1 = ctxErr ∧
    runSyncer none ctxErr evs = runSyncer none ctxErr evs2 ∧
    (runSyncer none ctxErr evs).2 =
      cancelHandle (runSignals runInit (evs.map Prod.fst)) := by
  refine ⟨?_, ?_, ?_⟩
  · show (runLoop runInit ctxErr evs).1 = ctxErr
    rw [runLoop_eq]
  · show runLoop runInit ctxErr evs = runLoop runInit ctxErr evs2
    rw [runLoop_eq, runLoop_eq, h]
  · show (runLoop runInit ctxErr evs).2 =
      cancelHandle (runSignals runInit (evs.map Prod.fst))
    rw [runLoop_eq]

/-- Closed instance of `c10_run_returns_only_ctx_err`: a leader term that
fails with an error does not change `Run`'s return value or behaviour. -/
theorem c10_run_returns_only_ctx_err_witness :
    ([(true, some "subscribe failed")].map Prod.fst =
      [(true, (none : Option String))].map Prod.fst) ∧
    (runSyncer none "context canceled" [(true, some "subscribe failed")]).1 =
      "context canceled" :=
  ⟨by decide, (c10_run_returns_only_ctx_err "context canceled"
    [(true, some "subscribe failed")] [(true, none)] (by decide)).1⟩

/-! ### The reconcile loop (`Syncer.runLeader`) -/

/-- `srcMap`/`dstMap` construction (`sync.go` 154–161): `m[target.IP] =
target` over the snapshot in order, a later duplicate IP overwriting an
earlier one.  Go map iteration order is unspecified; this model iterates the
association list in its own order, one admissible concretization — the
claims proved about the diff are order-insensitive (set-level). -/
def goMapBuild (ts : List Target) : List (String × Target) :=
  ts.foldl (fun m t => alistInsert m t.ip t) []

/-- `hostsToAdd` (`sync.go` 164–170): the targets of `srcMap` whose IP is
absent from `dstMap`, collected in iteration order. -/
def hostsToAdd (src dst : List Target) : List Target :=
  ((goMapBuild src).filter
    (fun p => (alistLookup (goMapBuild dst) p.1).isNone)).map Prod.snd

/-- The removal requests (`sync.go` 179–183): the targets of `dstMap` whose
IP is absent from `srcMap`, sent to `removeCh` in iteration order. -/
def removalReqs (src dst : List Target) : List Target :=
  ((goMapBuild dst).filter
    (fun p => (alistLookup (goMapBuild src) p.1).isNone)).map Prod.snd

/-- Observable actions of one snapshot's diff application, in program order:
an `addCh` send per host to add, the single batch `AddTargets` call (skipped
when there is nothing to add), then a `removeCh` send per host to remove. -/
inductive SyncEv where
  | addNotify (t : Target)
  | callAddTargets (ts : List Target)
  | removeReq (t : Target)
deriving DecidableEq, Repr

/-- The action sequence `runLeader` emits for one snapshot (`sync.go`
163–183), assuming `GetTargets` and `AddTargets` succeed. -/
def snapshotEvents (src dst : List Target) : List SyncEv :=
  (hostsToAdd src dst).map .addNotify
    ++ (if hostsToAdd src dst = [] then []
        else [.callAddTargets (hostsToAdd src dst)])
    ++ (removalReqs src dst).map .removeReq

/-- Keys of an association list are pairwise distinct. -/
def alistKeysNodup {α : Type} (m : List (String × α)) : Prop :=
  (m.map Prod.fst).Nodup

theorem alistLookup_mem {α : Type} :
    ∀ {m : List (String × α)} {k : String} {v : α},
      alistLookup m k = some v → (k, v) ∈ m := by
  intro m
  induction m with
  | nil => intro k v h; cases h
  | cons p rest ih =>
      intro k v h
      simp only [alistLookup] at h
      by_cases hp : p.1 = k
      · rw [if_pos hp] at h
        injection h with h
        obtain ⟨p1, p2⟩ := p
        simp only at hp h
        rw [← hp, ← h]
        exact List.mem_cons_self _ _
      · rw [if_neg hp] at h
        exact List.mem_cons_of_mem p (ih h)

theorem mem_alistLookup {α : Type} :
    ∀ {m : List (String × α)}, alistKeysNodup m →
      ∀ {k : String} {v : α}, (k, v) ∈ m → alistLookup m k = some v := by
  intro m
  induction m with
  | nil => intro _ k v h; cases h
  | cons p rest ih =>
      intro hN k v h
      have hN2 := List.nodup_cons.mp hN
      rcases List.mem_cons.mp h with heq | hmem
      · have h1 : p.1 = k := by rw [← heq]
        have h2 : p.2 = v := by rw [← heq]
        simp [alistLookup, h1, h2]
      · have hk : k ∈ rest.map Prod.fst :=
          List.mem_map.mpr ⟨(k, v), hmem, rfl⟩
        have hp : ¬ p.1 = k := fun hc => hN2.1 (hc ▸ hk)
        simp only [alistLookup, if_neg hp]
        exact ih hN2.2 hmem

theorem alistKeysNodup_insert {α : Type} (m : List (String × α)) (k : String)
    (v : α) (h : alistKeysNodup m) : alistKeysNodup (alistInsert m k v) := by
  refine List.nodup_cons.mpr ⟨?_, ?_⟩
  · intro hk
    rcases List.mem_map.mp hk with ⟨p, hp, hpk⟩
    have := List.mem_filter.mp hp
    exact absurd hpk (of_decide_eq_true this.2)
  · exact h.sublist ((List.filter_sublist m).map Prod.fst)

theorem mem_alistInsert {α : Type} {m : List (String × α)} {k : String}
    {v : α} {p : String × α} (h : p ∈ alistInsert m k v) :
    p = (k, v) ∨ p ∈ m := by
  rcases List.mem_cons.mp h with heq | hmem
  · exact Or.inl heq
  · exact Or.inr (List.mem_of_mem_filter hmem)

theorem goMapBuild_spec (ts : List Target) :
    alistKeysNodup (goMapBuild ts) ∧
    ∀ p ∈ goMapBuild ts, p.1 = p.2.ip := by
  have main : ∀ (l : List Target) (init : List (String × Target)),
      alistKeysNodup init → (∀ p ∈ init, p.1 = p.2.ip) →
      alistKeysNodup (l.foldl (fun m t => alistInsert m t.ip t) init) ∧
      ∀ p ∈ l.foldl (fun m t => alistInsert m t.ip t) init, p.1 = p.2.ip := by
    intro l
    induction l with
    | nil => intro init h1 h2; exact ⟨h1, h2⟩
    | cons t rest ih =>
        intro init h1 h2
        refine ih (alistInsert init t.ip t) (alistKeysNodup_insert init t.ip t h1) ?_
        intro p hp
        rcases mem_alistInsert hp with heq | hmem
        · rw [heq]
        · exact h2 p hmem
  exact main ts [] List.Pairwise.nil (fun p hp => by cases hp)

theorem mem_hostsToAdd {src dst : List Target} {t : Target} :
    t ∈ hostsToAdd src dst ↔
      (alistLookup (goMapBuild src) t.ip = some t ∧
       alistLookup (goMapBuild dst) t.ip = none) := by
  constructor
  · intro h
    rcases List.mem_map.mp h with ⟨p, hp, hpt⟩
    have hf := List.mem_filter.mp hp
    have hkey := (goMapBuild_spec src).2 p hf.1
    subst hpt
    constructor
    · have hpm : (p.1, p.2) ∈ goMapBuild src := hf.1
      have hl := mem_alistLookup (goMapBuild_spec src).1 hpm
      rw [← hkey]
      exact hl
    · rw [← hkey]
      exact Option.isNone_iff_eq_none.mp hf.2
  · intro h
    have hmem : (t.ip, t) ∈ goMapBuild src := alistLookup_mem h.1
    refine List.mem_map.mpr ⟨(t.ip, t), ?_, rfl⟩
    refine List.mem_filter.mpr ⟨hmem, ?_⟩
    show (alistLookup (goMapBuild dst) t.ip).isNone = true
    rw [h.2]
    rfl

theorem mem_removalReqs {src dst : List Target} {t : Target} :
    t ∈ removalReqs src dst ↔
      (alistLookup (goMapBuild dst) t.ip = some t ∧
       alistLookup (goMapBuild src) t.ip = none) := by
  constructor
  · intro h
    rcases List.mem_map.mp h with ⟨p, hp, hpt⟩
    have hf := List.mem_filter.mp hp
    have hkey := (goMapBuild_spec dst).2 p hf.1
    subst hpt
    constructor
    · have hpm : (p.1, p.2) ∈ goMapBuild dst := hf.1
      have hl := mem_alistLookup (goMapBuild_spec dst).1 hpm
      rw [← hkey]
      exact hl
    · rw [← hkey]
      exact Option.isNone_iff_eq_none.mp hf.2
  · intro h
    have hmem : (t.ip, t) ∈ goMapBuild dst := alistLookup_mem h.1
    refine List.mem_map.mpr ⟨(t.ip, t), ?_, rfl⟩
    refine List.mem_filter.mpr ⟨hmem, ?_⟩
    show (alistLookup (goMapBuild src) t.ip).isNone = true
    rw [h.2]
    rfl

/-- Recognizer for batch `AddTargets` call events. -/
def isCallAddEv : SyncEv → Bool
  | .callAddTargets _ => true
  | _ => false

/-- Recognizer for `addCh` notification events. -/
def isAddNotifyEv : SyncEv → Bool
  | .addNotify _ => true
  | _ => false

/-- Recognizer for `removeCh` removal-request events. -/
def isRemoveReqEv : SyncEv → Bool
  | .removeReq _ => true
  | _ => false

theorem filter_callAdd_notifies (l : List Target) :
    (l.map SyncEv.addNotify).filter isCallAddEv = [] := by
  induction l with
  | nil => rfl
  | cons t rest ih => simp [List.filter_cons, isCallAddEv, ih]

theorem filter_callAdd_removes (l : List Target) :
    (l.map SyncEv.removeReq).filter isCallAddEv = [] := by
  induction l with
  | nil => rfl
  | cons t rest ih => simp [List.filter_cons, isCallAddEv, ih]

theorem filter_notify_notifies (l : List Target) :
    (l.map SyncEv.addNotify).filter isAddNotifyEv = l.map SyncEv.addNotify := by
  induction l with
  | nil => rfl
  | cons t rest ih => simp [List.filter_cons, isAddNotifyEv, ih]

theorem filter_notify_removes (l : List Target) :
    (l.map SyncEv.removeReq).filter isAddNotifyEv = [] := by
  induction l with
  | nil => rfl
  | cons t rest ih => simp [List.filter_cons, isAddNotifyEv, ih]

/-- C7: the batch of added targets is exactly the set with a key in `srcMap`
but not `dstMap`; the removal requests are exactly the set with a key in
`dstMap` but not `srcMap`; the snapshot makes exactly one `AddTargets` call
carrying that batch when it is non-empty and none when it is empty, with one
add-notification per added target; and when the two maps have equal key sets
there is no `AddTargets` call and no removal request. -/
theorem c7_snapshot_diff_exact (src dst : List Target) :
    (∀ t : Target, t ∈ hostsToAdd src dst ↔
      (alistLookup (goMapBuild src) t.ip = some t ∧
       alistLookup (goMapBuild dst) t.ip = none)) ∧
    (∀ t : Target, t ∈ removalReqs src dst ↔
      (alistLookup (goMapBuild dst) t.ip = some t ∧
       alistLookup (goMapBuild src) t.ip = none)) ∧
    ((snapshotEvents src dst).filter isCallAddEv =
      if hostsToAdd src dst = [] then []
      else [SyncEv.callAddTargets (hostsToAdd src dst)]) ∧
    ((snapshotEvents src dst).filter isAddNotifyEv =
      (hostsToAdd src dst).map SyncEv.addNotify) ∧
    ((∀ k : String, (alistLookup (goMapBuild src) k).isSome =
        (alistLookup (goMapBuild dst) k).isSome) →
      hostsToAdd src dst = [] ∧ removalReqs src dst = []) := by
  refine ⟨fun t => mem_hostsToAdd, fun t => mem_removalReqs, ?_, ?_, ?_⟩
  · by_cases hA : hostsToAdd src dst = [] <;>
      simp [snapshotEvents, hA, List.filter_append, filter_callAdd_notifies,
        filter_callAdd_removes, List.filter_cons, isCallAddEv]
  · by_cases hA : hostsToAdd src dst = [] <;>
      simp [snapshotEvents, hA, List.filter_append, filter_notify_notifies,
        filter_notify_removes, List.filter_cons, isAddNotifyEv]
  · intro hk
    refine ⟨List.eq_nil_iff_forall_not_mem.mpr ?_,
      List.eq_nil_iff_forall_not_mem.mpr ?_⟩
    · intro t ht
      have h := mem_hostsToAdd.mp ht
      have hkt := hk t.ip
      rw [h.1, h.2] at hkt
      simp at hkt
    · intro t ht
      have h := mem_removalReqs.mp ht
      have hkt := hk t.ip
      rw [h.1, h.2] at hkt
      simp at hkt

/-- Closed instance of `c7_snapshot_diff_exact`: scenario A (`src =
[{10.0.0.1}]`, `dst = []`) adds exactly `tA` with one call, and equal
snapshots (`src = dst = [{10.0.0.1}]`) produce no call and no removal. -/
theorem c7_snapshot_diff_exact_witness :
    (tA ∈ hostsToAdd [tA] [] ∧ removalReqs [tA] [] = []) ∧
    (hostsToAdd [tA] [tA] = [] ∧ removalReqs [tA] [tA] = []) :=
  ⟨⟨((c7_snapshot_diff_exact [tA] []).1 tA).mpr (by decide), by decide⟩,
   (c7_snapshot_diff_exact [tA] [tA]).2.2.2.2 (fun k => rfl)⟩

theorem not_removeReq_of_mem_adds {src dst : List Target} {e : SyncEv}
    (he : e ∈ (hostsToAdd src dst).map SyncEv.addNotify ++
      (if hostsToAdd src dst = [] then []
       else [SyncEv.callAddTargets (hostsToAdd src dst)])) :
    isRemoveReqEv e = false := by
  rcases List.mem_append.mp he with hm | hm
  · rcases List.mem_map.mp hm with ⟨t, _, ht⟩
    rw [← ht]
    rfl
  · by_cases hA : hostsToAdd src dst = []
    · rw [if_pos hA] at hm
      cases hm
    · rw [if_neg hA] at hm
      rw [List.mem_singleton.mp hm]
      rfl

/-- C8: in the action sequence of one snapshot, every removal request comes
strictly after every addition action (the per-target add-notifications and
the batch `AddTargets` call): if position `i` holds a removal request and
position `j` holds a non-removal action, then `j < i`. -/
theorem c8_additions_before_removals (src dst : List Target) (i j : Nat)
    (hi : i < (snapshotEvents src dst).length)
    (hj : j < (snapshotEvents src dst).length)
    (hri : isRemoveReqEv ((snapshotEvents src dst).get ⟨i, hi⟩) = true)
    (hrj : isRemoveReqEv ((snapshotEvents src dst).get ⟨j, hj⟩) = false) :
    j < i := by
  obtain ⟨A, R, hsplit, hAmem, hRmem⟩ :
      ∃ A R : List SyncEv, snapshotEvents src dst = A ++ R ∧
        (∀ e ∈ A, isRemoveReqEv e = false) ∧
        (∀ e ∈ R, isRemoveReqEv e = true) := by
    refine ⟨(hostsToAdd src dst).map SyncEv.addNotify ++
      (if hostsToAdd src dst = [] then []
       else [SyncEv.callAddTargets (hostsToAdd src dst)]),
      (removalReqs src dst).map SyncEv.removeReq, rfl, ?_, ?_⟩
    · exact fun e he => not_removeReq_of_mem_adds he
    · intro e he
      rcases List.mem_map.mp he with ⟨t, _, ht⟩
      rw [← ht]
      rfl
  have hlen : (snapshotEvents src dst).length = A.length + R.length := by
    rw [hsplit, List.length_append]
  have hiA : ¬ i < A.length := by
    intro hlt
    have hb : i < (A ++ R).length := by rw [← hsplit]; exact hi
    have hget : (snapshotEvents src dst).get ⟨i, hi⟩ = A[i] := by
      rw [List.get_eq_getElem]
      have : (snapshotEvents src dst)[i] = (A ++ R)[i] := by
        congr 1
      rw [this]
      exact List.getElem_append_left hlt
    rw [hget] at hri
    rw [hAmem A[i] (List.getElem_mem hlt)] at hri
    simp at hri
  have hjA : j < A.length := by
    by_contra hge
    have hgeA : A.length ≤ j := Nat.le_of_not_lt hge
    have hb : j < (A ++ R).length := by rw [← hsplit]; exact hj
    have hjR : j - A.length < R.length := by omega
    have hget : (snapshotEvents src dst).get ⟨j, hj⟩ = R[j - A.length] := by
      rw [List.get_eq_getElem]
      have : (snapshotEvents src dst)[j] = (A ++ R)[j] := by
        congr 1
      rw [this]
      exact List.getElem_append_right hgeA
    rw [hget] at hrj
    rw [hRmem (R[j - A.length]) (List.getElem_mem hjR)] at hrj
    simp at hrj
  omega

/-- Closed instance of `c8_additions_before_removals`: with `src = [tA]` and
`dst = [tB]` the removal request sits at position 2, after the notification
at 0 and the `AddTargets` call at 1. -/
theorem c8_additions_before_removals_witness :
    isRemoveReqEv ((snapshotEvents [tA] [tB]).get ⟨2, by decide⟩) = true ∧
    (0 : Nat) < 2 :=
  ⟨by decide, c8_additions_before_removals [tA] [tB] 2 0 (by decide) (by decide)
    (by decide) (by decide)⟩

/-! ### Error propagation (`Syncer.Run` / `Syncer.runLeader`) -/

/-- One iteration of `runLeader`'s reconcile loop for snapshot `src`
(`sync.go` 136–184), with the destination's behaviour supplied as oracles:
`getRes` is the `Dst.GetTargets` result and `addRes` the `Dst.AddTargets`
result (consulted only when there is something to add).  A `GetTargets` error
returns it before any diff action; a failed batch `AddTargets` returns its
error after the notifications and the call, before any removal request. -/
def processSnapshot (src : List Target) (getRes : Except String (List Target))
    (addRes : Except String Unit) : List SyncEv × Option String :=
  match getRes with
  | .error e => ([], some e)
  | .ok dst =>
      if hostsToAdd src dst = [] then
        ((removalReqs src dst).map .removeReq, none)
      else
        match addRes with
        | .error e =>
            ((hostsToAdd src dst).map .addNotify ++
              [.callAddTargets (hostsToAdd src dst)], some e)
        | .ok _ =>
            ((hostsToAdd src dst).map .addNotify ++
              [.callAddTargets (hostsToAdd src dst)] ++
              (removalReqs src dst).map .removeReq, none)

/-- The reconcile loop over successive snapshots: the first snapshot whose
processing fails ends the run with that error, leaving later snapshots
unprocessed. -/
def runSnapshots :
    List (List Target × Except String (List Target) × Except String Unit) →
      List SyncEv × Option String
  | [] => ([], none)
  | (src, getRes, addRes) :: rest =>
      match processSnapshot src getRes addRes with
      | (evs, some e) => (evs, some e)
      | (evs, none) =>
          match runSnapshots rest with
          | (evs2, r) => (evs ++ evs2, r)

/-- `runLeader`: subscribe to the source first — an error returns immediately,
before any snapshot processing — then run the reconcile loop. -/
def runLeaderModel (subRes : Except String Unit)
    (snaps :
      List (List Target × Except String (List Target) × Except String Unit)) :
    List SyncEv × Option String :=
  match subRes with
  | .error e => ([], some e)
  | .ok _ => runSnapshots snaps

/-- C9: (a) a `Lock` failure makes `Run` return that error with no further
calls; (b) a `Subscribe` failure makes `runLeader` return that error before
processing any snapshot; (c) a `GetTargets` failure ends the reconcile loop
with that error, with no diff action for that snapshot and later snapshots
unprocessed; (d) a batch `AddTargets` failure ends the loop with that error
after the notifications and the single batch call, with no removal request
sent and later snapshots unprocessed. -/
theorem c9_fatal_errors (e ctxErr : String)
    (evs : List (Bool × Option String))
    (snaps rest :
      List (List Target × Except String (List Target) × Except String Unit))
    (src dst : List Target) (addRes : Except String Unit) :
    (runSyncer (some e) ctxErr evs = (e, runInit)) ∧
    (runLeaderModel (.error e) snaps = ([], some e)) ∧
    (runSnapshots ((src, .error e, addRes) :: rest) = ([], some e)) ∧
    (hostsToAdd src dst ≠ [] →
      runSnapshots ((src, .ok dst, .error e) :: rest) =
        ((hostsToAdd src dst).map .addNotify ++
          [.callAddTargets (hostsToAdd src dst)], some e)) := by
  refine ⟨rfl, rfl, rfl, ?_⟩
  intro hne
  simp [runSnapshots, processSnapshot, hne]

/-- Closed instance of `c9_fatal_errors`: a failing batch add for snapshot
`src = [tA]` against an empty destination ends the loop with that error after
the notification and the call, sending no removal request. -/
theorem c9_fatal_errors_witness :
    hostsToAdd [tA] [] ≠ [] ∧
    runSnapshots [([tA], .ok [], .error "add failed")] =
      ([.addNotify tA, .callAddTargets [tA]], some "add failed") :=
  ⟨by decide,
   (c9_fatal_errors "add failed" "ctx" [] [] [] [tA] [] (.ok ())).2.2.2
     (by decide)⟩

end Targetsync
